import Mathlib

/-!
Shallow embedding of `dodgem` (src/main.rs), a semantic-version bump tool.

Strings are modelled as `List Char`.  The Rust `i32` components of `Version`
are modelled as `Int` together with explicit wrapping (`wrap32`), matching
release-mode two's-complement overflow.  The regex
`.*-(\d+)\.(\d+)\.(\d+)` from `Version::parse_tag` is embedded by `captures`
with leftmost-greedy match semantics; `.` matches any character except a
newline, and `\d` — which the regex crate interprets as Unicode `\p{Nd}` —
is modelled by its ASCII part `0-9`, so the match model is exact on ASCII
tag names and the group-selection theorems restrict to those.  Fallible
operations return `Option`; panics (`unwrap`/`expect`) are explicit
outcomes.
-/

/-- ASCII decimal digit test, the model of the regex class `\d`.  The regex
crate's `\d` is Unicode-aware (`\p{Nd}`, every decimal-digit character of the
crate's bundled Unicode tables); this model keeps only its ASCII part `0-9`,
on which every Unicode version agrees with `0-9` exactly.  On a tag
containing a non-ASCII decimal digit the real regex can match a group this
model rejects (and the subsequent `parse::<i32>`, which accepts only ASCII
digits, then fails); the theorems about which group the match selects
therefore carry an all-ASCII hypothesis, under which the embedding is
exact. -/
def isDigitCh (c : Char) : Bool := decide (48 ≤ c.toNat) && decide (c.toNat ≤ 57)

/-- Numeric value of an ASCII digit character. -/
def charVal (c : Char) : Nat := c.toNat - 48

/-- Character of a decimal digit value. -/
def digitCh (d : Nat) : Char := Char.ofNat (48 + d)

/-- Value of a run of decimal digit characters, as `str::parse` computes it
(before the `i32` range check). -/
def toVal (l : List Char) : Nat := l.foldl (fun a c => 10 * a + charVal c) 0

/-- Decimal printing of a natural number, fuel-structured so it reduces in the
kernel.  Models the decimal rendering done by `format!` in `version_str`. -/
def natCharsAux : Nat → Nat → List Char
  | 0, _ => []
  | fuel + 1, n => if n < 10 then [digitCh n] else natCharsAux fuel (n / 10) ++ [digitCh (n % 10)]

/-- Canonical decimal form of a natural number. -/
def natChars (n : Nat) : List Char := natCharsAux (n + 1) n

/-- Decimal form of an `i32` value (as `format!` prints it; a negative value
gets a leading minus sign). -/
def intChars (n : Int) : List Char :=
  if n < 0 then '-' :: natChars n.natAbs else natChars n.toNat

/-- Two's-complement wrapping into the `i32` range, the release-mode result of
`i32` addition overflow (src/main.rs lines 32-52). -/
def wrap32 (x : Int) : Int := (x + 2147483648) % 4294967296 - 2147483648

/-- `struct Version` (src/main.rs lines 6-11): three `i32` components. -/
structure Version where
  major : Int
  minor : Int
  patch : Int
deriving DecidableEq

/-- `Version::bump_major` (src/main.rs lines 32-38). -/
def Version.bump_major (v : Version) : Version := ⟨wrap32 (v.major + 1), 0, 0⟩

/-- `Version::bump_minor` (src/main.rs lines 39-45). -/
def Version.bump_minor (v : Version) : Version := ⟨v.major, wrap32 (v.minor + 1), 0⟩

/-- `Version::bump_patch` (src/main.rs lines 46-52). -/
def Version.bump_patch (v : Version) : Version := ⟨v.major, v.minor, wrap32 (v.patch + 1)⟩

/-- `Version::version_str` (src/main.rs lines 54-56): `format!("{}.{}.{}", ..)`. -/
def Version.version_str (v : Version) : List Char :=
  intChars v.major ++ '.' :: (intChars v.minor ++ '.' :: intChars v.patch)

/-!
The regex `.*-(\d+)\.(\d+)\.(\d+)`.

A dash position `i` is *valid* when `s[i] = '-'` and the rest of the string
starts with `digits.digits.digits` (each digit run maximal: a greedy `\d+`
followed by a literal `.` cannot backtrack into the run, because every
shorter split would put a digit where the `.` must match).  Leftmost-greedy
matching then selects: among valid dash positions, the greatest one reachable
from the first one without crossing a newline (the leading `.*` cannot cross
`'\n'`; the match start is the leftmost position from which a valid dash is
reachable, and greediness of `.*` picks the furthest reachable valid dash).
-/

/-- Parse `(\d+)\.(\d+)\.(\d+)` as a prefix of `l`, each run maximal. -/
def groupsFrom (l : List Char) : Option (List Char × List Char × List Char) :=
  let g1 := l.takeWhile isDigitCh
  let r1 := l.dropWhile isDigitCh
  if g1.isEmpty then none
  else if r1.head? = some '.' then
    let g2 := r1.tail.takeWhile isDigitCh
    let r2 := r1.tail.dropWhile isDigitCh
    if g2.isEmpty then none
    else if r2.head? = some '.' then
      let g3 := r2.tail.takeWhile isDigitCh
      if g3.isEmpty then none else some (g1, g2, g3)
    else none
  else none

/-- The capture groups obtained when the match places the dash at position `i`. -/
def validAt (s : List Char) (i : Nat) : Option (List Char × List Char × List Char) :=
  if (s.drop i).head? = some '-' then groupsFrom (s.drop i).tail else none

/-- `Regex::captures` for `.*-(\d+)\.(\d+)\.(\d+)` (src/main.rs lines 15-16):
leftmost-greedy semantics as described above.  Via `isDigitCh` this inherits
the ASCII reading of `\d`, so it is exact on ASCII strings; on a tag whose
trailing dash-group is written with non-ASCII decimal digits the real regex
would select that later group (whose integer parse then fails). -/
def captures (s : List Char) : Option (List Char × List Char × List Char) :=
  let valids := (List.range s.length).filter (fun i => (validAt s i).isSome)
  match valids.head? with
  | none => none
  | some q0 =>
    let nl := q0 + (s.drop q0).findIdx (fun c => c == '\n')
    match (valids.filter (fun i => decide (i < nl))).getLast? with
    | none => none
    | some q => validAt s q

/-- Outcome of `Version::parse_tag`: the `Ok` version, the `Err` return (from
`match_to_int`, i.e. an `i32` parse failure), or a panic (the `.unwrap()` on
`captures` at src/main.rs line 16 when the regex does not match). -/
inductive ParseOutcome where
  | ok (v : Version)
  | error
  | panic
deriving DecidableEq

/-- `match_to_int` (src/main.rs lines 18-23): `parse::<i32>` on a nonempty
digit run succeeds exactly when the value fits in `i32`. -/
def match_to_int (g : List Char) : Option Int :=
  if toVal g ≤ 2147483647 then some ((toVal g : Int)) else none

/-- `Version::parse_tag` (src/main.rs lines 14-30). -/
def Version.parse_tag (nm : List Char) : ParseOutcome :=
  match captures nm with
  | none => .panic
  | some (g1, g2, g3) =>
    match match_to_int g1 with
    | none => .error
    | some a =>
      match match_to_int g2 with
      | none => .error
      | some b =>
        match match_to_int g3 with
        | none => .error
        | some c => .ok ⟨a, b, c⟩

/-!
The file patcher: `contents.replace(&old_version, &next_version)`
(src/main.rs line 131).  Rust `str::replace` substitutes every
non-overlapping occurrence of the pattern, scanning left to right; with an
empty pattern it inserts the replacement at every character boundary.
-/

/-- Index of the leftmost occurrence of `pat` as a contiguous sublist of `s`. -/
def findSub : List Char → List Char → Option Nat
  | s, pat =>
    if pat.isPrefixOf s then some 0
    else
      match s with
      | [] => none
      | _ :: t => (findSub t pat).map (· + 1)

/-- Whether `pat` occurs as a contiguous sublist of `s`. -/
def containsSub (s pat : List Char) : Bool := (findSub s pat).isSome

/-- Fuel-structured worker for `str::replace` with a nonempty pattern: each
step consumes at least one character, so `s.length` fuel suffices. -/
def replaceAllF : Nat → List Char → List Char → List Char → List Char
  | 0, s, _, _ => s
  | fuel + 1, s, old, new =>
    match findSub s old with
    | none => s
    | some i => s.take i ++ new ++ replaceAllF fuel (s.drop (i + old.length)) old new

/-- Rust `str::replace` (src/main.rs line 131). -/
def replaceAll (s old new : List Char) : List Char :=
  if old.isEmpty then new ++ s.flatMap (fun c => c :: new)
  else replaceAllF s.length s old new

/-- Worker splitting `s` at the same non-overlapping occurrences of `old`
that `replaceAllF` substitutes. -/
def splitSubF : Nat → List Char → List Char → List (List Char)
  | 0, s, _ => [s]
  | fuel + 1, s, old =>
    match findSub s old with
    | none => [s]
    | some i => s.take i :: splitSubF fuel (s.drop (i + old.length)) old

/-- `s` split at the non-overlapping occurrences of `old`. -/
def splitSub (s old : List Char) : List (List Char) := splitSubF s.length s old

/-- Join a list of pieces with a separator between consecutive pieces. -/
def joinWith (sep : List Char) : List (List Char) → List Char
  | [] => []
  | [x] => x
  | x :: y :: rest => x ++ sep ++ joinWith sep (y :: rest)

/-!
The `bumper` pipeline (src/main.rs lines 59-135), over an abstract model of
the repository.  Each fallible libgit2/IO call is a field of `Repo`; errors
this program creates with `anyhow!` carry their message (`errMsg`), errors
propagated with `?` from git2/std are `libErr`, and `unwrap`/`expect`
failures are `panicked`.  The second component of the result collects the
contents of every attempted write of `package.py`.
-/

/-- Commit/object identifiers. -/
abbrev Oid := Nat

/-- One callback invocation of `tag_foreach` (src/main.rs lines 81-92):
`resolvesTo` is the target commit when `find_tag` succeeds (it fails e.g. on
lightweight tags), `name` is the refname when it is valid UTF-8. -/
structure TagEntry where
  resolvesTo : Option Oid
  name : Option (List Char)
deriving DecidableEq

/-- Specification view of one `tag_foreach` callback: the recorded binding
`(target commit id, tag name)` when the entry resolves to a tag object with
a valid UTF-8 name and targets commit `o`, nothing otherwise. -/
def tagEntryFor (o : Oid) (e : TagEntry) : Option (List Char) :=
  match e.resolvesTo, e.name with
  | some o', some n => if o' = o then some n else none
  | _, _ => none

/-- The tag index (src/main.rs lines 79-94): a `HashMap` built by inserting
`(target, name)` for each entry that resolves and has a UTF-8 name; a later
insert for the same commit id overwrites an earlier one. -/
def buildTagmap (es : List TagEntry) : Oid → Option (List Char) :=
  es.foldl
    (fun m e =>
      match e.resolvesTo, e.name with
      | some o, some n => fun q => if q = o then some n else m q
      | _, _ => m)
    (fun _ => none)

/-- `arg_enum! BumpType` (src/main.rs lines 139-147). -/
inductive BumpType where
  | major
  | minor
  | patch
deriving DecidableEq

/-- The `match bump_type` dispatch (src/main.rs lines 111-115). -/
def bumpOf : BumpType → Version → Version
  | .major, v => v.bump_major
  | .minor, v => v.bump_minor
  | .patch, v => v.bump_patch

/-- Abstract state of the repository and filesystem, as `bumper` observes it. -/
structure Repo where
  /-- `Repository::discover` succeeds. -/
  discovered : Bool
  /-- `repo.head()?.resolve()?`: `none` if either call errors, otherwise the
  `shorthand()` of the resolved reference (`none` when not valid UTF-8). -/
  headResolve : Option (Option (List Char))
  /-- `repo.diff_index_to_workdir(None, None)` succeeds. -/
  diffOk : Bool
  /-- `diff.stats()` succeeds (called at lines 68 and 70). -/
  statsOk : Bool
  /-- `diff.stats()?.files_changed()`. -/
  filesChanged : Nat
  /-- `stats.to_buf(DiffStatsFormat::SHORT, 80)` succeeds. -/
  toBufOk : Bool
  /-- `diff_buf.as_str()`: the stat text when valid UTF-8. -/
  statsBuf : Option (List Char)
  /-- `repo.tag_foreach(..)` succeeds overall. -/
  tagsOk : Bool
  /-- The tag enumeration, in callback order. -/
  tags : List TagEntry
  /-- `revwalk()`/`push_head()`/`set_sorting(..)` all succeed. -/
  revwalkOk : Bool
  /-- The commit ids yielded by the walk (already `filter_map(Result::ok)`ed),
  newest first. -/
  walk : List Oid
  /-- `repo.workdir()`. -/
  workdir : Option (List Char)
  /-- `fs::read_to_string(package.py)`: the contents, `none` on IO error. -/
  fileContents : Option (List Char)
  /-- `fs::write(package.py, ..)` succeeds. -/
  writeOk : Bool

/-- Result of one run of `bumper`. -/
inductive RunResult where
  | ok (written : List Char)
  | errMsg (msg : List Char)
  | libErr
  | panicked
deriving DecidableEq

/-- Message of the branch check failure (src/main.rs line 64). -/
def mainBranchMsg : List Char := "must be on main branch".toList

/-- Fallback when the diff stat buffer is not UTF-8 (src/main.rs line 71). -/
def noDiffMsg : List Char := "(no diff available)".toList

/-- Fixed part of the dirty-tree message (src/main.rs lines 72-75): the code
formats the stat text after this text. -/
def uncommittedPre : List Char := "Repo contains uncommited changes: ".toList

/-- Message of the missing-tag failure (src/main.rs line 118). -/
def noPrevTagMsg : List Char := "No previous tag found".toList

/-- `bumper` (src/main.rs lines 59-135).  Returns the run result and the list
of attempted writes of `package.py` (each item the full new contents). -/
def bumper (r : Repo) (bt : BumpType) : RunResult × List (List Char) :=
  if r.discovered then
    match r.headResolve with
    | none => (.libErr, [])
    | some sh =>
      if sh = some ("main".toList) then
        if r.diffOk then
          if r.statsOk then
            if 0 < r.filesChanged then
              if r.toBufOk then
                (.errMsg (uncommittedPre ++ r.statsBuf.getD noDiffMsg), [])
              else (.libErr, [])
            else
              if r.tagsOk then
                if r.revwalkOk then
                  match r.walk.find? (fun o => (buildTagmap r.tags o).isSome) with
                  | none => (.errMsg noPrevTagMsg, [])
                  | some t =>
                    match buildTagmap r.tags t with
                    | none => (.panicked, [])
                    | some nm =>
                      match Version.parse_tag nm with
                      | .ok v =>
                        match r.workdir with
                        | none => (.panicked, [])
                        | some _ =>
                          match r.fileContents with
                          | none => (.libErr, [])
                          | some contents =>
                            let updated :=
                              replaceAll contents v.version_str (bumpOf bt v).version_str
                            ((if r.writeOk then RunResult.ok updated else .libErr), [updated])
                      | _ => (.panicked, [])
                else (.libErr, [])
              else (.libErr, [])
          else (.libErr, [])
        else (.libErr, [])
      else (.errMsg mainBranchMsg, [])
  else (.libErr, [])

/-! ### Supporting lemmas -/

/-- Wrapping is the identity inside the `i32` range. -/
theorem wrap32_eq_self {x : Int} (h1 : -2147483648 ≤ x) (h2 : x < 2147483648) :
    wrap32 x = x := by
  unfold wrap32
  omega

/-! ### C1: bumping -/

/-- C1: bumping is given by the componentwise formulas — with the proviso,
forced by the `i32` representation, that the incremented component does not
overflow (see the counterexample and C9).  The three sample versions from
the claim are instantiated for every bump kind. -/
theorem c1_bump_formulas :
    (∀ v : Version, -2147483648 ≤ v.major → v.major < 2147483647 →
      v.bump_major = ⟨v.major + 1, 0, 0⟩) ∧
    (∀ v : Version, -2147483648 ≤ v.minor → v.minor < 2147483647 →
      v.bump_minor = ⟨v.major, v.minor + 1, 0⟩) ∧
    (∀ v : Version, -2147483648 ≤ v.patch → v.patch < 2147483647 →
      v.bump_patch = ⟨v.major, v.minor, v.patch + 1⟩) ∧
    ((Version.mk 0 0 0).bump_major = ⟨1, 0, 0⟩ ∧
      (Version.mk 0 0 0).bump_minor = ⟨0, 1, 0⟩ ∧
      (Version.mk 0 0 0).bump_patch = ⟨0, 0, 1⟩) ∧
    ((Version.mk 1 2 3).bump_major = ⟨2, 0, 0⟩ ∧
      (Version.mk 1 2 3).bump_minor = ⟨1, 3, 0⟩ ∧
      (Version.mk 1 2 3).bump_patch = ⟨1, 2, 4⟩) ∧
    ((Version.mk 9 9 9).bump_major = ⟨10, 0, 0⟩ ∧
      (Version.mk 9 9 9).bump_minor = ⟨9, 10, 0⟩ ∧
      (Version.mk 9 9 9).bump_patch = ⟨9, 9, 10⟩) := by
  refine ⟨fun v h1 h2 => ?_, fun v h1 h2 => ?_, fun v h1 h2 => ?_, by decide, by decide, by decide⟩
  · simp only [Version.bump_major]
    rw [wrap32_eq_self (by omega) (by omega)]
  · simp only [Version.bump_minor]
    rw [wrap32_eq_self (by omega) (by omega)]
  · simp only [Version.bump_patch]
    rw [wrap32_eq_self (by omega) (by omega)]

/-- Witness for C1 at the concrete version (1, 2, 3). -/
theorem c1_bump_formulas_witness : (Version.mk 1 2 3).bump_major = ⟨2, 0, 0⟩ :=
  c1_bump_formulas.1 ⟨1, 2, 3⟩ (by decide) (by decide)

/-- C1 counterexample: at `major = 2147483647` (`i32::MAX`) the claimed
formula `bump(V, major).major = V.major + 1` fails — the addition wraps. -/
theorem c1_bump_overflow_cex :
    (Version.mk 2147483647 0 0).bump_major = ⟨-2147483648, 0, 0⟩ ∧
    ((Version.mk 2147483647 0 0).bump_major).major ≠ 2147483647 + 1 := by
  decide

/-- A captured digit run above `i32::MAX` makes `parse_tag` return `Err`. -/
theorem parse_error_of_overflow {s g1 g2 g3 : List Char}
    (hc : captures s = some (g1, g2, g3))
    (hov : 2147483647 < toVal g1 ∨ 2147483647 < toVal g2 ∨ 2147483647 < toVal g3) :
    Version.parse_tag s = .error := by
  unfold Version.parse_tag match_to_int
  rw [hc]
  rcases hov with h | h | h
  · simp [Nat.not_le.mpr h]
  · by_cases h1 : toVal g1 ≤ 2147483647 <;> simp [h1, Nat.not_le.mpr h]
  · by_cases h1 : toVal g1 ≤ 2147483647 <;> by_cases h2 : toVal g2 ≤ 2147483647 <;>
      simp [h1, h2, Nat.not_le.mpr h]

/-! ### C9: 32-bit signed components -/

/-- C9: `Version` components are `i32`: a captured digit run whose value
exceeds 2147483647 makes `parse_tag` fail (return `Err`) instead of
producing a `Version`, and bumping a component equal to 2147483647 wraps
modulo 2^32 to a negative value instead of producing component + 1. -/
theorem c9_i32_bounds :
    (∀ s g1 g2 g3, captures s = some (g1, g2, g3) →
      2147483647 < toVal g1 ∨ 2147483647 < toVal g2 ∨ 2147483647 < toVal g3 →
      Version.parse_tag s = .error) ∧
    (∀ m p : Int, ((Version.mk 2147483647 m p).bump_major).major = -2147483648 ∧
      ((Version.mk 2147483647 m p).bump_major).major < 0 ∧
      ((Version.mk 2147483647 m p).bump_major).major ≠ 2147483647 + 1) ∧
    (∀ M p : Int, ((Version.mk M 2147483647 p).bump_minor).minor = -2147483648) ∧
    (∀ M m : Int, ((Version.mk M m 2147483647).bump_patch).patch = -2147483648) := by
  refine ⟨fun s g1 g2 g3 hc hov => parse_error_of_overflow hc hov,
    fun m p => ?_, fun M p => ?_, fun M m => ?_⟩
  · refine ⟨?_, ?_, ?_⟩ <;> simp [Version.bump_major, wrap32]
  · simp [Version.bump_minor, wrap32]
  · simp [Version.bump_patch, wrap32]

/-- Witness for C9: the tag `a-2147483648.0.0` (one more than `i32::MAX` in
the major group) is rejected by the parse step. -/
theorem c9_i32_bounds_witness :
    Version.parse_tag ("a-2147483648.0.0".toList) = .error :=
  c9_i32_bounds.1 ("a-2147483648.0.0".toList)
    ("2147483648".toList) ("0".toList) ("0".toList) (by decide) (by decide)

/-! ### C8: the tag index -/

/-- The fold that builds the tag index, looked up at `o`, is the most recent
matching binding, falling back to the accumulator. -/
theorem buildTagmap_go (es : List TagEntry) (m : Oid → Option (List Char)) (o : Oid) :
    (es.foldl
      (fun m e =>
        match e.resolvesTo, e.name with
        | some o, some n => fun q => if q = o then some n else m q
        | _, _ => m)
      m) o = (es.reverse.findSome? (tagEntryFor o)).elim (m o) some := by
  induction es generalizing m with
  | nil => simp
  | cons e t ih =>
    rw [List.foldl_cons, ih, List.reverse_cons, List.findSome?_append]
    rcases hts : t.reverse.findSome? (tagEntryFor o) with _ | n
    · simp only [Option.none_or, Option.elim]
      rcases e with ⟨_ | o', _ | n⟩ <;> simp [tagEntryFor]
      by_cases ho : o' = o
      · subst ho; simp [List.findSome?_cons, tagEntryFor]
      · simp [List.findSome?_cons, tagEntryFor, ho, Ne.symm ho]
    · simp

/-- C8: the tag index records, for each entry that resolves to a tag object
with a valid UTF-8 name, the pair (target commit id, tag name); the entry
recorded for a commit is the last such binding in enumeration order
(later writers overwrite earlier ones), and entries that fail to resolve or
whose name is not valid UTF-8 leave the index unchanged. -/
theorem c8_tagmap_lastwins :
    (∀ (es : List TagEntry) (o : Oid),
      buildTagmap es o = es.reverse.findSome? (tagEntryFor o)) ∧
    (∀ (es : List TagEntry) (e : TagEntry), e.resolvesTo = none ∨ e.name = none →
      ∀ o : Oid, buildTagmap (es ++ [e]) o = buildTagmap es o) := by
  have key : ∀ (es : List TagEntry) (o : Oid),
      buildTagmap es o = es.reverse.findSome? (tagEntryFor o) := by
    intro es o
    rw [buildTagmap, buildTagmap_go]
    rcases es.reverse.findSome? (tagEntryFor o) with _ | n <;> simp
  refine ⟨key, fun es e he o => ?_⟩
  rw [key, key, List.reverse_append]
  have : tagEntryFor o e = none := by
    rcases e with ⟨_ | o', _ | n⟩ <;> simp_all [tagEntryFor]
  simp [this]

/-- Witness for C8: a non-resolving entry appended after two entries for the
same commit leaves the index unchanged, and the second entry won. -/
theorem c8_tagmap_lastwins_witness :
    buildTagmap
        ([⟨some 7, some ("refs/tags/a-1.0.0".toList)⟩,
          ⟨some 7, some ("refs/tags/a-1.1.0".toList)⟩] ++ [⟨none, some ("x".toList)⟩]) 7 =
      buildTagmap
        [⟨some 7, some ("refs/tags/a-1.0.0".toList)⟩,
          ⟨some 7, some ("refs/tags/a-1.1.0".toList)⟩] 7 :=
  c8_tagmap_lastwins.2 _ _ (Or.inl rfl) 7

/-! ### Occurrence lemmas for `findSub` -/

/-- `isPrefixOf` as an explicit decomposition. -/
theorem isPrefixOf_eq_true_iff {l1 l2 : List Char} :
    l1.isPrefixOf l2 = true ↔ ∃ t, l1 ++ t = l2 := by
  rw [ List.isPrefixOf_iff_prefix]
  exact Iff.rfl

/-- A found index carries an occurrence. -/
theorem findSub_isPrefixAt {s pat : List Char} {i : Nat} :
    findSub s pat = some i → pat.isPrefixOf (s.drop i) = true := by
  induction s generalizing i with
  | nil =>
    intro h
    rw [findSub] at h
    split at h
    · rename_i hp
      injection h with h'
      rw [← h']
      simpa using hp
    · simp at h
  | cons a t ih =>
    intro h
    rw [findSub] at h
    split at h
    · rename_i hp
      injection h with h'
      rw [← h']
      simpa using hp
    · rcases Option.map_eq_some'.mp h with ⟨j, hj, hij⟩
      rw [← hij]
      simpa using ih hj

/-- The found index is the leftmost occurrence. -/
theorem findSub_min {s pat : List Char} {i : Nat} :
    findSub s pat = some i → ∀ j, j < i → pat.isPrefixOf (s.drop j) = false := by
  induction s generalizing i with
  | nil =>
    intro h j hj
    rw [findSub] at h
    split at h
    · injection h with h'
      omega
    · simp at h
  | cons a t ih =>
    intro h j hj
    rw [findSub] at h
    split at h
    · injection h with h'
      omega
    · rename_i hp
      rcases Option.map_eq_some'.mp h with ⟨k, hk, hik⟩
      cases j with
      | zero =>
        rw [List.drop_zero]
        exact Bool.eq_false_iff.mpr hp
      | succ j' =>
        simp only [List.drop_succ_cons]
        exact ih hk j' (by omega)

/-- No found index means no occurrence anywhere. -/
theorem findSub_none {s pat : List Char} :
    findSub s pat = none → ∀ j, pat.isPrefixOf (s.drop j) = false := by
  induction s with
  | nil =>
    intro h j
    rw [findSub] at h
    split at h
    · simp at h
    · rename_i hp
      rw [List.drop_nil]
      exact Bool.eq_false_iff.mpr hp
  | cons a t ih =>
    intro h j
    rw [findSub] at h
    split at h
    · simp at h
    · rename_i hp
      have ht : findSub t pat = none := by
        rcases hfd : findSub t pat with _ | k
        · rfl
        · rw [hfd] at h
          simp at h
      cases j with
      | zero =>
        rw [List.drop_zero]
        exact Bool.eq_false_iff.mpr hp
      | succ j' =>
        simp only [List.drop_succ_cons]
        exact ih ht j'

/-- A found occurrence of a nonempty pattern fits inside the string. -/
theorem findSub_bound {s pat : List Char} {i : Nat}
    (h : findSub s pat = some i) (hp : pat ≠ []) :
    i + pat.length ≤ s.length := by
  obtain ⟨t, ht⟩ := isPrefixOf_eq_true_iff.mp (findSub_isPrefixAt h)
  have hlen := congrArg List.length ht
  simp only [List.length_append, List.length_drop] at hlen
  have hpl : 0 < pat.length := List.length_pos.mpr hp
  by_cases hi : s.length ≤ i
  · rw [List.drop_eq_nil_of_le hi] at ht
    rcases List.append_eq_nil.mp ht with ⟨h1, -⟩
    exact absurd h1 hp
  · omega

/-- Any occurrence makes `findSub` succeed. -/
theorem findSub_isSome {s pat : List Char} {j : Nat}
    (h : pat.isPrefixOf (s.drop j) = true) : (findSub s pat).isSome = true := by
  induction s generalizing j with
  | nil =>
    rw [findSub]
    split
    · rfl
    · rename_i hp
      rw [List.drop_nil] at h
      exact absurd h hp
  | cons a t ih =>
    rw [findSub]
    split
    · rfl
    · rename_i hp
      cases j with
      | zero =>
        rw [List.drop_zero] at h
        exact absurd h hp
      | succ j' =>
        rw [List.drop_succ_cons] at h
        have := ih h
        rcases hfd : findSub t pat with _ | k
        · rw [hfd] at this
          simp at this
        · simp [hfd]

/-- The suffix of a concatenation is an occurrence of itself. -/
theorem containsSub_left_append (pre s : List Char) : containsSub (pre ++ s) s = true := by
  unfold containsSub
  apply findSub_isSome (j := pre.length)
  rw [List.drop_left]
  exact isPrefixOf_eq_true_iff.mpr ⟨[], List.append_nil s⟩

/-- Early exit of `bumper` when HEAD does not resolve to `main`. -/
theorem bumper_not_main (r : Repo) (bt : BumpType) (sh : Option (List Char))
    (h1 : r.discovered = true) (h2 : r.headResolve = some sh)
    (h3 : sh ≠ some ("main".toList)) :
    bumper r bt = (.errMsg mainBranchMsg, []) := by
  simp [bumper, h1, h2]
  intro hc
  exact absurd (by simpa using hc) h3

/-! ### C6: branch validation -/

/-- C6 (amended): when HEAD resolves to a shorthand other than `main`
(a different branch, or `HEAD` itself when detached), the run fails with the
fixed message `must be on main branch` — which does not name the actual
branch — performs no write, and the outcome is independent of the tag set
and the commit walk (the failure precedes tag enumeration and version
computation). -/
theorem c6_wrong_branch (r : Repo) (bt : BumpType) (sh : Option (List Char))
    (h1 : r.discovered = true) (h2 : r.headResolve = some sh)
    (h3 : sh ≠ some ("main".toList)) :
    bumper r bt = (.errMsg mainBranchMsg, []) ∧
    (∀ (ts : List TagEntry) (w : List Oid),
      bumper { r with tags := ts, walk := w } bt = (.errMsg mainBranchMsg, [])) := by
  exact ⟨bumper_not_main r bt sh h1 h2 h3,
    fun ts w => bumper_not_main _ bt sh h1 h2 h3⟩

/-- Witness for C6 on a repository whose HEAD is the branch `master`. -/
theorem c6_wrong_branch_witness :
    bumper ⟨true, some (some ("master".toList)), true, true, 0, true, none,
      true, [], true, [], none, none, true⟩ BumpType.minor =
      (.errMsg mainBranchMsg, []) :=
  (c6_wrong_branch _ BumpType.minor (some ("master".toList)) rfl rfl (by decide)).1

/-- C6 counterexample: on branch `dev` the error message is the fixed string
`must be on main branch`; it does not report the actual branch name. -/
theorem c6_no_branch_name_cex :
    bumper ⟨true, some (some ("dev".toList)), true, true, 0, true, none,
      true, [], true, [], none, none, true⟩ BumpType.minor =
      (.errMsg mainBranchMsg, []) ∧
    containsSub mainBranchMsg ("dev".toList) = false := by
  decide

/-! ### C7: dirty working tree -/

/-- C7: with at least one changed file between index and working directory
(and the stat formatting calls succeeding, as the claim's premise that the
diff *reports* changes presupposes), the run fails with the dirty-tree
message, that message contains the compact stat summary verbatim, no write
is performed, and the outcome is independent of the tag set and the walk
(the failure precedes tag enumeration and any file write). -/
theorem c7_dirty_tree (r : Repo) (bt : BumpType) (st : List Char)
    (h1 : r.discovered = true) (h2 : r.headResolve = some (some ("main".toList)))
    (h3 : r.diffOk = true) (h4 : r.statsOk = true) (h5 : 0 < r.filesChanged)
    (h6 : r.toBufOk = true) (h7 : r.statsBuf = some st) :
    bumper r bt = (.errMsg (uncommittedPre ++ st), []) ∧
    containsSub (uncommittedPre ++ st) st = true ∧
    (∀ (ts : List TagEntry) (w : List Oid),
      bumper { r with tags := ts, walk := w } bt =
        (.errMsg (uncommittedPre ++ st), [])) := by
  refine ⟨?_, containsSub_left_append _ _, fun ts w => ?_⟩
  · simp [bumper, h1, h2, h3, h4, h5, h6, h7]
  · simp [bumper, h1, h2, h3, h4, h5, h6, h7]

/-- Witness for C7: one changed file with a concrete stat block. -/
theorem c7_dirty_tree_witness :
    bumper ⟨true, some (some ("main".toList)), true, true, 1, true,
      some (" 1 file changed".toList), true, [], true, [], none, none, true⟩
      BumpType.patch =
      (.errMsg (uncommittedPre ++ " 1 file changed".toList), []) :=
  (c7_dirty_tree _ BumpType.patch (" 1 file changed".toList)
    rfl rfl rfl rfl (by decide) rfl rfl).1

/-! ### C5: no previous tag, and write gating -/

/-- C5: when the history walk finds no commit recorded in the tag index, the
run fails with `No previous tag found` and performs no write; and in full
generality, a write of `package.py` is attempted only when every preceding
step succeeded: discovery, branch check, clean-tree check, tag enumeration,
walk setup, finding a tagged commit, parsing its tag, a present working
directory and a readable file. -/
theorem c5_write_gating :
    (∀ (r : Repo) (bt : BumpType),
      r.discovered = true → r.headResolve = some (some ("main".toList)) →
      r.diffOk = true → r.statsOk = true → r.filesChanged = 0 →
      r.tagsOk = true → r.revwalkOk = true →
      (∀ o ∈ r.walk, buildTagmap r.tags o = none) →
      bumper r bt = (.errMsg noPrevTagMsg, [])) ∧
    (∀ (r : Repo) (bt : BumpType), (bumper r bt).2 ≠ [] →
      r.discovered = true ∧ r.headResolve = some (some ("main".toList)) ∧
      r.diffOk = true ∧ r.statsOk = true ∧ r.filesChanged = 0 ∧
      r.tagsOk = true ∧ r.revwalkOk = true ∧
      (∃ t nm v, r.walk.find? (fun o => (buildTagmap r.tags o).isSome) = some t ∧
        buildTagmap r.tags t = some nm ∧ Version.parse_tag nm = .ok v) ∧
      r.workdir.isSome = true ∧ r.fileContents.isSome = true) := by
  constructor
  · intro r bt h1 h2 h3 h4 h5 h6 h7 h8
    have hf : r.walk.find? (fun o => (buildTagmap r.tags o).isSome) = none :=
      List.find?_eq_none.mpr (fun o ho => by simp [h8 o ho])
    simp [bumper, h1, h2, h3, h4, h5, h6, h7, hf]
  · intro r bt h
    by_cases h1 : r.discovered = true
    swap
    · rw [Bool.not_eq_true] at h1
      simp [bumper, h1] at h
    rcases h2 : r.headResolve with _ | sh
    · simp [bumper, h1, h2] at h
    by_cases h3 : sh = some ("main".toList)
    swap
    · rw [bumper_not_main r bt sh h1 h2 h3] at h
      simp at h
    subst h3
    by_cases h4 : r.diffOk = true
    swap
    · rw [Bool.not_eq_true] at h4
      simp [bumper, h1, h2, h4] at h
    by_cases h5 : r.statsOk = true
    swap
    · rw [Bool.not_eq_true] at h5
      simp [bumper, h1, h2, h4, h5] at h
    by_cases h6 : 0 < r.filesChanged
    · by_cases h7 : r.toBufOk = true
      · simp [bumper, h1, h2, h4, h5, h6, h7] at h
      · rw [Bool.not_eq_true] at h7
        simp [bumper, h1, h2, h4, h5, h6, h7] at h
    have h6' : r.filesChanged = 0 := by omega
    by_cases h8 : r.tagsOk = true
    swap
    · rw [Bool.not_eq_true] at h8
      simp [bumper, h1, h2, h4, h5, h6', h8] at h
    by_cases h9 : r.revwalkOk = true
    swap
    · rw [Bool.not_eq_true] at h9
      simp [bumper, h1, h2, h4, h5, h6', h8, h9] at h
    rcases hf : r.walk.find? (fun o => (buildTagmap r.tags o).isSome) with _ | t
    · simp [bumper, h1, h2, h4, h5, h6', h8, h9, hf] at h
    rcases hm : buildTagmap r.tags t with _ | nm
    · simp [bumper, h1, h2, h4, h5, h6', h8, h9, hf, hm] at h
    cases hp : Version.parse_tag nm with
    | error => simp [bumper, h1, h2, h4, h5, h6', h8, h9, hf, hm, hp] at h
    | panic => simp [bumper, h1, h2, h4, h5, h6', h8, h9, hf, hm, hp] at h
    | ok v =>
      rcases hw : r.workdir with _ | wd
      · simp [bumper, h1, h2, h4, h5, h6', h8, h9, hf, hm, hp, hw] at h
      rcases hc : r.fileContents with _ | contents
      · simp [bumper, h1, h2, h4, h5, h6', h8, h9, hf, hm, hp, hw, hc] at h
      exact ⟨h1, rfl, h4, h5, h6', h8, h9, ⟨t, nm, v, rfl, hm, hp⟩,
        by simp [hw], by simp [hc]⟩

/-- Witness for C5: a repository with commits but no tags fails with the
`No previous tag found` message and an empty write list. -/
theorem c5_write_gating_witness :
    bumper ⟨true, some (some ("main".toList)), true, true, 0, true, none,
      true, [], true, [5, 6], none, none, true⟩ BumpType.minor =
      (.errMsg noPrevTagMsg, []) :=
  c5_write_gating.1 _ BumpType.minor rfl rfl rfl rfl rfl rfl rfl
    (fun _ _ => rfl)

/-! ### C3: malformed tags -/

/-- C3 counterexample: the tag `v1` does not match the pattern, and the
parse step panics (the `.unwrap()` on a failed regex match) — the run aborts
with a crash, not a reported `MalformedTag` error.  On a repository whose
latest tagged commit carries that tag, the whole run panics. -/
theorem c3_malformed_panic_cex :
    Version.parse_tag ("v1".toList) = .panic ∧
    bumper ⟨true, some (some ("main".toList)), true, true, 0, true, none,
      true, [⟨some 1, some ("v1".toList)⟩], true, [1], some ("/".toList),
      some ("x".toList), true⟩ BumpType.minor = (.panicked, []) := by
  decide

/-- C3 (amended): a tag that does not match the pattern, or whose captured
digit group overflows `i32`, still aborts the run — but by panicking, not by
returning a reported `MalformedTag` error: a failed match panics inside
`parse_tag` (the `unwrap` on `captures`), an integer-parse failure makes
`parse_tag` return `Err`, and `bumper` unwraps either outcome into a panic;
no write is performed. -/
theorem c3_malformed_aborts :
    (∀ s : List Char, captures s = none → Version.parse_tag s = .panic) ∧
    (∀ s g1 g2 g3 : List Char, captures s = some (g1, g2, g3) →
      2147483647 < toVal g1 ∨ 2147483647 < toVal g2 ∨ 2147483647 < toVal g3 →
      Version.parse_tag s = .error) ∧
    (∀ (r : Repo) (bt : BumpType) (t : Oid) (nm : List Char),
      r.discovered = true → r.headResolve = some (some ("main".toList)) →
      r.diffOk = true → r.statsOk = true → r.filesChanged = 0 →
      r.tagsOk = true → r.revwalkOk = true →
      r.walk.find? (fun o => (buildTagmap r.tags o).isSome) = some t →
      buildTagmap r.tags t = some nm →
      (Version.parse_tag nm = .panic ∨ Version.parse_tag nm = .error) →
      bumper r bt = (.panicked, [])) := by
  refine ⟨fun s hc => ?_, fun s g1 g2 g3 hc hov => parse_error_of_overflow hc hov,
    fun r bt t nm h1 h2 h3 h4 h5 h6 h7 hf hm hp => ?_⟩
  · unfold Version.parse_tag
    rw [hc]
  · rcases hp with hp | hp <;>
      simp [bumper, h1, h2, h3, h4, h5, h6, h7, hf, hm, hp]

/-- Witness for C3: a repository whose latest tagged commit carries the
non-matching tag `refs/tags/zzz` panics. -/
theorem c3_malformed_aborts_witness :
    bumper ⟨true, some (some ("main".toList)), true, true, 0, true, none,
      true, [⟨some 1, some ("refs/tags/zzz".toList)⟩], true, [1],
      some ("/".toList), some ("x".toList), true⟩ BumpType.major =
      (.panicked, []) :=
  c3_malformed_aborts.2.2 _ BumpType.major 1 ("refs/tags/zzz".toList)
    rfl rfl rfl rfl rfl rfl rfl (by decide) (by decide) (Or.inl (by decide))

/-! ### C4: the file patcher -/

/-- An occurrence of `pat` at `i` decomposes the string. -/
theorem occ_split {s pat : List Char} {i : Nat}
    (h : pat.isPrefixOf (s.drop i) = true) :
    s = s.take i ++ pat ++ s.drop (i + pat.length) := by
  obtain ⟨t, ht⟩ := isPrefixOf_eq_true_iff.mp h
  have ht2 : s.drop (i + pat.length) = t := by
    rw [← List.drop_drop, ← ht, List.drop_left]
  rw [ht2, List.append_assoc, ht, List.take_append_drop]

/-- An occurrence inside `take i s` is an occurrence in `s` strictly before `i`. -/
theorem occ_in_take {s pat : List Char} {i j : Nat} (hp : pat ≠ [])
    (h : pat.isPrefixOf ((s.take i).drop j) = true) :
    pat.isPrefixOf (s.drop j) = true ∧ j < i := by
  obtain ⟨t, ht⟩ := isPrefixOf_eq_true_iff.mp h
  rw [List.drop_take] at ht
  have hj : j < i := by
    by_contra hji
    push_neg at hji
    rw [Nat.sub_eq_zero_of_le hji, List.take_zero] at ht
    rcases List.append_eq_nil.mp ht with ⟨h1, -⟩
    exact absurd h1 hp
  refine ⟨isPrefixOf_eq_true_iff.mpr ⟨t ++ (s.drop j).drop (i - j), ?_⟩, hj⟩
  rw [← List.append_assoc, ht, List.take_append_drop]

/-- The split never produces an empty list of parts. -/
theorem splitSubF_ne_nil (fuel : Nat) (s old : List Char) : splitSubF fuel s old ≠ [] := by
  cases fuel with
  | zero => simp [splitSubF]
  | succ f =>
    simp only [splitSubF]
    rcases findSub s old with _ | i <;> simp

/-- A nonempty pattern does not occur in the empty string. -/
theorem containsSub_nil {old : List Char} (h : old ≠ []) : containsSub [] old = false := by
  have h0 : old.isPrefixOf ([] : List Char) = false := by
    cases old with
    | nil => exact absurd rfl h
    | cons a t => rfl
  simp [containsSub, findSub, h0]

/-- Joining with a separator steps over a nonempty tail. -/
theorem joinWith_cons (sep x : List Char) (l : List (List Char)) (h : l ≠ []) :
    joinWith sep (x :: l) = x ++ sep ++ joinWith sep l := by
  cases l with
  | nil => exact absurd rfl h
  | cons y t => rfl

/-- Core characterization of the replace worker: it joins with the
replacement exactly the parts that joining with the pattern rebuilds the
input from, and no part contains the pattern. -/
theorem patcher_core (old new : List Char) (hold : old ≠ []) :
    ∀ (fuel : Nat) (s : List Char), s.length ≤ fuel →
      replaceAllF fuel s old new = joinWith new (splitSubF fuel s old) ∧
      joinWith old (splitSubF fuel s old) = s ∧
      (∀ part ∈ splitSubF fuel s old, containsSub part old = false) := by
  intro fuel
  induction fuel with
  | zero =>
    intro s hs
    have hnil : s = [] := List.eq_nil_of_length_eq_zero (by omega)
    subst hnil
    refine ⟨rfl, rfl, ?_⟩
    intro part hp
    simp only [splitSubF, List.mem_singleton] at hp
    subst hp
    exact containsSub_nil hold
  | succ f ih =>
    intro s hs
    rcases hf : findSub s old with _ | i
    · refine ⟨?_, ?_, ?_⟩
      · simp [replaceAllF, splitSubF, hf, joinWith]
      · simp [splitSubF, hf, joinWith]
      · intro part hp
        simp only [splitSubF, hf, List.mem_singleton] at hp
        subst hp
        unfold containsSub
        rw [hf]
        rfl
    · have hbound := findSub_bound hf hold
      have holdlen : 0 < old.length := List.length_pos.mpr hold
      have hslen : (s.drop (i + old.length)).length ≤ f := by
        rw [List.length_drop]
        omega
      obtain ⟨ih1, ih2, ih3⟩ := ih (s.drop (i + old.length)) hslen
      have hsplit : splitSubF (f + 1) s old =
          s.take i :: splitSubF f (s.drop (i + old.length)) old := by
        simp [splitSubF, hf]
      have hrepl : replaceAllF (f + 1) s old new =
          s.take i ++ new ++ replaceAllF f (s.drop (i + old.length)) old new := by
        simp [replaceAllF, hf]
      refine ⟨?_, ?_, ?_⟩
      · rw [hrepl, ih1, hsplit, joinWith_cons _ _ _ (splitSubF_ne_nil f _ _)]
      · rw [hsplit, joinWith_cons _ _ _ (splitSubF_ne_nil f _ _), ih2]
        exact (occ_split (findSub_isPrefixAt hf)).symm
      · intro part hp
        rw [hsplit] at hp
        rcases List.mem_cons.mp hp with hp | hp
        · subst hp
          unfold containsSub
          rcases hfd : findSub (s.take i) old with _ | j
          · rfl
          · obtain ⟨hocc, hji⟩ := occ_in_take hold (findSub_isPrefixAt hfd)
            have hmin := findSub_min hf j hji
            rw [hocc] at hmin
            simp at hmin
        · exact ih3 part hp

/-- C4: the patcher output joins, with the new version string, exactly the
parts obtained by cutting the content at every (non-overlapping, leftmost)
occurrence of the old version string: rejoining the parts with the old
string reproduces the content unchanged, and no part contains the old
string — so every literal occurrence is replaced and nothing else is
altered.  Old version strings are never empty, and the claim's example
holds. -/
theorem c4_patcher (content old new : List Char) (hold : old ≠ []) :
    replaceAll content old new = joinWith new (splitSub content old) ∧
    joinWith old (splitSub content old) = content ∧
    (∀ part ∈ splitSub content old, containsSub part old = false) ∧
    (∀ v : Version, v.version_str ≠ []) ∧
    replaceAll ("version = \"1.2.3\"".toList) ("1.2.3".toList) ("1.3.0".toList) =
      "version = \"1.3.0\"".toList := by
  have hcore := patcher_core old new hold content.length content (le_refl _)
  have hra : replaceAll content old new = replaceAllF content.length content old new := by
    unfold replaceAll
    rw [if_neg (fun hh => hold (List.isEmpty_iff.mp hh))]
  refine ⟨hra ▸ hcore.1, hcore.2.1, hcore.2.2, fun v => ?_, by decide⟩
  simp [Version.version_str]

/-- Witness for C4 at concrete content containing two occurrences. -/
theorem c4_patcher_witness :
    replaceAll ("v = 1.2.3; w = 1.2.3".toList) ("1.2.3".toList) ("1.3.0".toList) =
      joinWith ("1.3.0".toList)
        (splitSub ("v = 1.2.3; w = 1.2.3".toList) ("1.2.3".toList)) ∧
    joinWith ("1.2.3".toList)
        (splitSub ("v = 1.2.3; w = 1.2.3".toList) ("1.2.3".toList)) =
      "v = 1.2.3; w = 1.2.3".toList ∧
    (∀ part ∈ splitSub ("v = 1.2.3; w = 1.2.3".toList) ("1.2.3".toList),
      containsSub part ("1.2.3".toList) = false) ∧
    (∀ v : Version, v.version_str ≠ []) ∧
    replaceAll ("version = \"1.2.3\"".toList) ("1.2.3".toList) ("1.3.0".toList) =
      "version = \"1.3.0\"".toList :=
  c4_patcher ("v = 1.2.3; w = 1.2.3".toList) ("1.2.3".toList) ("1.3.0".toList)
    (by decide)

/-! ### Decimal printing and parsing agree on canonical digit strings -/

/-- `toVal`, generalized over the accumulator, is positional evaluation. -/
theorem toVal_go (M : List Char) : ∀ a : Nat,
    M.foldl (fun a c => 10 * a + charVal c) a =
      Nat.ofDigits 10 ((M.map charVal).reverse) + a * 10 ^ M.length := by
  induction M with
  | nil => intro a; simp
  | cons c t ih =>
    intro a
    rw [List.foldl_cons, ih]
    simp only [List.map_cons, List.reverse_cons, Nat.ofDigits_append,
      Nat.ofDigits_singleton, List.length_reverse, List.length_map,
      List.length_cons]
    ring

/-- `toVal` is positional evaluation of the digit list. -/
theorem toVal_eq (M : List Char) :
    toVal M = Nat.ofDigits 10 ((M.map charVal).reverse) := by
  have h := toVal_go M 0
  simpa [toVal] using h

/-- The fuelled printer agrees with `Nat.digits` for positive numbers. -/
theorem natCharsAux_eq : ∀ {fuel n : Nat}, 0 < n → n ≤ fuel →
    natCharsAux fuel n = ((Nat.digits 10 n).map digitCh).reverse := by
  intro fuel
  induction fuel with
  | zero => intro n h0 hf; omega
  | succ f ih =>
    intro n h0 hf
    rw [natCharsAux]
    by_cases hn : n < 10
    · rw [if_pos hn, Nat.digits_def' (by norm_num) h0]
      have hd : n / 10 = 0 := by omega
      rw [hd, Nat.digits_zero, Nat.mod_eq_of_lt hn]
      simp
    · rw [if_neg hn]
      push_neg at hn
      have h1 : 0 < n / 10 := Nat.div_pos hn (by norm_num)
      have h2 : n / 10 ≤ f := by omega
      rw [ih h1 h2, Nat.digits_def' (by norm_num) h0]
      simp

/-- The printer agrees with `Nat.digits` for positive numbers. -/
theorem natChars_eq {n : Nat} (h0 : 0 < n) :
    natChars n = ((Nat.digits 10 n).map digitCh).reverse :=
  natCharsAux_eq h0 (by omega)

/-- Digit characters round-trip through their value. -/
theorem digitCh_charVal {c : Char} (h : isDigitCh c = true) :
    digitCh (charVal c) = c := by
  unfold isDigitCh at h
  simp only [Bool.and_eq_true, decide_eq_true_eq] at h
  unfold digitCh charVal
  rw [Nat.add_sub_cancel' h.1]
  exact Char.ofNat_toNat c

/-- Digit characters have digit values. -/
theorem charVal_lt {c : Char} (h : isDigitCh c = true) : charVal c < 10 := by
  unfold isDigitCh at h
  simp only [Bool.and_eq_true, decide_eq_true_eq] at h
  unfold charVal
  omega

/-- A digit character other than `'0'` has a nonzero value. -/
theorem charVal_ne_zero {c : Char} (h : isDigitCh c = true) (hc : c ≠ '0') :
    charVal c ≠ 0 := by
  intro hv
  unfold isDigitCh at h
  simp only [Bool.and_eq_true, decide_eq_true_eq] at h
  unfold charVal at hv
  have h48 : c.toNat = 48 := by omega
  apply hc
  calc c = Char.ofNat c.toNat := (Char.ofNat_toNat c).symm
    _ = Char.ofNat 48 := by rw [h48]
    _ = '0' := by decide

/-- Printing the value of a canonical digit string gives the string back:
nonempty, all digits, and no leading zero (or the single digit `0`). -/
theorem natChars_toVal {M : List Char} (hne : M ≠ [])
    (hdig : ∀ c ∈ M, isDigitCh c = true)
    (hcanon : M = ['0'] ∨ M.head? ≠ some '0') :
    natChars (toVal M) = M := by
  by_cases h0 : M = ['0']
  · subst h0
    decide
  · rcases hcanon with h0' | hlead
    · exact absurd h0' h0
    obtain ⟨c0, M', rfl⟩ : ∃ c0 M', M = c0 :: M' := by
      cases M with
      | nil => exact absurd rfl hne
      | cons a t => exact ⟨a, t, rfl⟩
    have hc0 : c0 ≠ '0' := fun hh => hlead (by simp [hh])
    set L := ((c0 :: M').map charVal).reverse with hL
    have hLd : ∀ d ∈ L, d < 10 := by
      intro d hd
      rw [hL, List.mem_reverse, List.mem_map] at hd
      obtain ⟨c, hc, rfl⟩ := hd
      exact charVal_lt (hdig c hc)
    have hLlast : ∀ (h : L ≠ []), L.getLast h ≠ 0 := by
      intro h
      have h1 : L.getLast? = some (charVal c0) := by
        rw [hL, List.getLast?_reverse]
        simp
      have h2 : L.getLast? = some (L.getLast h) := List.getLast?_eq_getLast _ h
      rw [h1] at h2
      injection h2 with h3
      rw [← h3]
      exact charVal_ne_zero (hdig c0 (by simp)) hc0
    have hofd : Nat.digits 10 (Nat.ofDigits 10 L) = L :=
      Nat.digits_ofDigits 10 (by norm_num) L hLd hLlast
    have hLne : L ≠ [] := by simp [hL]
    have hpos : 0 < Nat.ofDigits 10 L := by
      rcases Nat.eq_zero_or_pos (Nat.ofDigits 10 L) with hz | hp
      · rw [hz, Nat.digits_zero] at hofd
        exact absurd hofd.symm hLne
      · exact hp
    rw [toVal_eq, ← hL, natChars_eq hpos, hofd, hL]
    rw [List.map_reverse, List.reverse_reverse, List.map_map]
    have hid : ∀ c ∈ c0 :: M', (digitCh ∘ charVal) c = c := fun c hc =>
      digitCh_charVal (hdig c hc)
    rw [List.map_congr_left hid]
    simp

/-- `intChars` on a natural-number cast is plain decimal printing. -/
theorem intChars_natCast (n : Nat) : intChars (n : Int) = natChars n := by
  unfold intChars
  rw [if_neg (by omega), Int.toNat_natCast]

/-! ### The regex on well-shaped tails -/

/-- `takeWhile`/`dropWhile` split a digit run at the first non-digit. -/
theorem takeWhile_digits_append {M : List Char} {c : Char} (r : List Char)
    (hM : ∀ x ∈ M, isDigitCh x = true) (hc : isDigitCh c = false) :
    (M ++ c :: r).takeWhile isDigitCh = M ∧
    (M ++ c :: r).dropWhile isDigitCh = c :: r := by
  induction M with
  | nil => simp [List.takeWhile_cons, List.dropWhile_cons, hc]
  | cons a t ih =>
    have ha : isDigitCh a = true := hM a (by simp)
    obtain ⟨ih1, ih2⟩ := ih (fun x hx => hM x (by simp [hx]))
    simp [List.takeWhile_cons, List.dropWhile_cons, ha, ih1, ih2]

/-- `groupsFrom` on the exact tail `M.m.p` (digit runs, end of string). -/
theorem groupsFrom_assembled {M m p : List Char}
    (hMne : M ≠ []) (hMd : ∀ x ∈ M, isDigitCh x = true)
    (hmne : m ≠ []) (hmd : ∀ x ∈ m, isDigitCh x = true)
    (hpne : p ≠ []) (hpd : ∀ x ∈ p, isDigitCh x = true) :
    groupsFrom (M ++ '.' :: (m ++ '.' :: p)) = some (M, m, p) := by
  have hdot : isDigitCh '.' = false := by decide
  obtain ⟨tM, dM⟩ := takeWhile_digits_append (m ++ '.' :: p) hMd hdot
  obtain ⟨tm, dm⟩ := takeWhile_digits_append p hmd hdot
  have tp : p.takeWhile isDigitCh = p := List.takeWhile_eq_self_iff.mpr hpd
  unfold groupsFrom
  simp only [tM, dM, tm, dm, tp, List.head?_cons, List.tail_cons]
  simp [List.isEmpty_iff, hMne, hmne, hpne]

/-- `validAt` at the dash of a well-shaped tag. -/
theorem validAt_assembled {any M m p : List Char}
    (hMne : M ≠ []) (hMd : ∀ x ∈ M, isDigitCh x = true)
    (hmne : m ≠ []) (hmd : ∀ x ∈ m, isDigitCh x = true)
    (hpne : p ≠ []) (hpd : ∀ x ∈ p, isDigitCh x = true) :
    validAt (any ++ '-' :: (M ++ '.' :: (m ++ '.' :: p))) any.length =
      some (M, m, p) := by
  unfold validAt
  rw [List.drop_left]
  simp only [List.head?_cons, List.tail_cons, if_pos rfl]
  exact groupsFrom_assembled hMne hMd hmne hmd hpne hpd

/-- Positions past the string are never valid. -/
theorem validAt_ge_length {s : List Char} {j : Nat} (h : s.length ≤ j) :
    validAt s j = none := by
  unfold validAt
  rw [List.drop_eq_nil_of_le h]
  rfl

/-- A position whose character is not a dash is never valid. -/
theorem validAt_of_head_ne {s : List Char} {j : Nat}
    (h : (s.drop j).head? ≠ some '-') : validAt s j = none := by
  unfold validAt
  rw [if_neg h]

/-- In a well-shaped tag no position after the dash is valid: every later
character is a digit or a dot, never a dash. -/
theorem validAt_after_dash {any M m p : List Char} {j : Nat}
    (hMd : ∀ x ∈ M, isDigitCh x = true) (hmd : ∀ x ∈ m, isDigitCh x = true)
    (hpd : ∀ x ∈ p, isDigitCh x = true) (hj : any.length < j) :
    validAt (any ++ '-' :: (M ++ '.' :: (m ++ '.' :: p))) j = none := by
  apply validAt_of_head_ne
  set T := M ++ '.' :: (m ++ '.' :: p) with hT
  have hmem : ∀ c ∈ T, c ≠ '-' := by
    intro c hc heq
    subst heq
    rw [hT] at hc
    rcases List.mem_append.mp hc with hc | hc
    · exact absurd (hMd _ hc) (by decide)
    · rcases List.mem_cons.mp hc with hc | hc
      · exact absurd hc (by decide)
      · rcases List.mem_append.mp hc with hc | hc
        · exact absurd (hmd _ hc) (by decide)
        · rcases List.mem_cons.mp hc with hc | hc
          · exact absurd hc (by decide)
          · exact absurd (hpd _ hc) (by decide)
  obtain ⟨k, rfl⟩ : ∃ k, j = any.length + (k + 1) := ⟨j - any.length - 1, by omega⟩
  rw [List.drop_append, List.drop_succ_cons]
  intro hh
  rcases hd : T.drop k with _ | ⟨c, rest⟩
  · rw [hd] at hh
    simp at hh
  · rw [hd] at hh
    simp only [List.head?_cons, Option.some.injEq] at hh
    have hcT : c ∈ T := by
      apply List.drop_subset k
      rw [hd]
      exact List.mem_cons_self c rest
    exact hmem c hcT hh

/-! ### Greedy selection of the last reachable valid dash -/

/-- In a strictly increasing list, a member that bounds every member is the
last element. -/
theorem getLast?_eq_of_max {l : List Nat} (hs : l.Pairwise (· < ·)) {k : Nat}
    (hm : k ∈ l) (hmax : ∀ x ∈ l, x ≤ k) : l.getLast? = some k := by
  induction l with
  | nil => cases hm
  | cons a t ih =>
    cases t with
    | nil =>
      rcases List.mem_singleton.mp hm with rfl
      rfl
    | cons b t' =>
      rw [List.getLast?_cons_cons]
      have hs' : (b :: t').Pairwise (· < ·) := (List.pairwise_cons.mp hs).2
      apply ih hs'
      · rcases List.mem_cons.mp hm with rfl | hm'
        · have hab : k < b := (List.pairwise_cons.mp hs).1 b (by simp)
          have hb : b ≤ k := hmax b (by simp)
          omega
        · exact hm'
      · intro x hx
        exact hmax x (by simp [hx])

/-- `findIdx` runs off the end when no element satisfies the test. -/
theorem findIdx_eq_length_of_none {l : List Char} {q : Char → Bool}
    (h : ∀ c ∈ l, q c = false) : l.findIdx q = l.length := by
  induction l with
  | nil => rfl
  | cons a t ih =>
    rw [List.findIdx_cons, h a (by simp)]
    simp only [cond_false, List.length_cons]
    rw [ih (fun c hc => h c (by simp [hc]))]

/-- The match of the embedded regex on a newline-free string: it captures at
the greatest valid dash position.  (`.*` can reach every valid dash from the
leftmost match start, and greediness picks the greatest.) -/
theorem captures_eq_of_last {s : List Char} {k : Nat}
    {g : List Char × List Char × List Char}
    (hnl : ∀ c ∈ s, c ≠ '\n')
    (hk : validAt s k = some g)
    (hmax : ∀ j, k < j → validAt s j = none) :
    captures s = some g := by
  have hklen : k < s.length := by
    by_contra hh
    push_neg at hh
    rw [validAt_ge_length hh] at hk
    cases hk
  have hmem : k ∈ (List.range s.length).filter (fun i => (validAt s i).isSome) := by
    rw [List.mem_filter, List.mem_range]
    exact ⟨hklen, by simp [hk]⟩
  obtain ⟨q0, tl, hq0⟩ : ∃ q0 tl,
      (List.range s.length).filter (fun i => (validAt s i).isSome) = q0 :: tl := by
    rcases hv : (List.range s.length).filter (fun i => (validAt s i).isSome) with
      _ | ⟨q0, tl⟩
    · rw [hv] at hmem
      cases hmem
    · exact ⟨q0, tl, rfl⟩
  have hq0len : q0 < s.length := by
    have hq0mem : q0 ∈ (List.range s.length).filter (fun i => (validAt s i).isSome) := by
      rw [hq0]
      exact List.mem_cons_self _ _
    rw [List.mem_filter, List.mem_range] at hq0mem
    exact hq0mem.1
  have hfi : (s.drop q0).findIdx (fun c => c == '\n') = (s.drop q0).length := by
    apply findIdx_eq_length_of_none
    intro c hc
    have hcn : c ≠ '\n' := hnl c (List.drop_subset _ _ hc)
    simp [hcn]
  have hnl2 : q0 + (s.drop q0).findIdx (fun c => c == '\n') = s.length := by
    rw [hfi, List.length_drop]
    omega
  have hsorted : ((List.range s.length).filter
      (fun i => (validAt s i).isSome)).Pairwise (· < ·) :=
    (List.pairwise_lt_range _).filter _
  have hmax' : ∀ x ∈ (List.range s.length).filter (fun i => (validAt s i).isSome),
      x ≤ k := by
    intro x hx
    by_contra hh
    push_neg at hh
    rw [List.mem_filter] at hx
    rw [hmax x hh] at hx
    simp at hx
  have hfilter : ((List.range s.length).filter (fun i => (validAt s i).isSome)).filter
      (fun i => decide (i < q0 + (s.drop q0).findIdx (fun c => c == '\n'))) =
      (List.range s.length).filter (fun i => (validAt s i).isSome) := by
    simp only [hnl2]
    apply List.filter_eq_self.mpr
    intro x hx
    rw [List.mem_filter, List.mem_range] at hx
    simpa using hx.1
  have hlast : (((List.range s.length).filter (fun i => (validAt s i).isSome)).filter
      (fun i => decide (i < q0 + (s.drop q0).findIdx (fun c => c == '\n')))).getLast? =
      some k := by
    rw [hfilter]
    exact getLast?_eq_of_max hsorted hmem hmax'
  unfold captures
  rw [hq0] at hlast ⊢
  simp only [List.head?_cons]
  rw [← hq0] at hlast
  rw [hq0] at hlast
  simp only [hlast, hk]

/-! ### C2: parse then format -/

/-- C2 counterexample: the tag `a-01.2.3` matches the claimed shape with
MAJOR = `01`, but parsing then formatting yields `1.2.3`, not `01.2.3`. -/
theorem c2_leading_zero_cex :
    Version.parse_tag ("a-01.2.3".toList) = .ok ⟨1, 2, 3⟩ ∧
    (Version.mk 1 2 3).version_str = "1.2.3".toList ∧
    "1.2.3".toList ≠ "01.2.3".toList := by
  decide

/-- C2 (amended): for every tag of shape `<anything>-MAJOR.MINOR.PATCH` —
with no newline in `<anything>`, each component a nonempty digit run without
leading zeros (or exactly `0`), and each value at most 2147483647 — parsing
with `parse_tag` succeeds and formatting the result with `version_str`
reproduces exactly `MAJOR.MINOR.PATCH`. -/
theorem c2_parse_format_roundtrip
    (any M m p : List Char)
    (hnl : ∀ c ∈ any, c ≠ '\n')
    (hMne : M ≠ []) (hMd : ∀ c ∈ M, isDigitCh c = true)
    (hmne : m ≠ []) (hmd : ∀ c ∈ m, isDigitCh c = true)
    (hpne : p ≠ []) (hpd : ∀ c ∈ p, isDigitCh c = true)
    (hMc : M = ['0'] ∨ M.head? ≠ some '0')
    (hmc : m = ['0'] ∨ m.head? ≠ some '0')
    (hpc : p = ['0'] ∨ p.head? ≠ some '0')
    (hMb : toVal M ≤ 2147483647) (hmb : toVal m ≤ 2147483647)
    (hpb : toVal p ≤ 2147483647) :
    Version.parse_tag (any ++ '-' :: (M ++ '.' :: (m ++ '.' :: p))) =
      .ok ⟨(toVal M : Int), (toVal m : Int), (toVal p : Int)⟩ ∧
    (Version.mk (toVal M) (toVal m) (toVal p)).version_str =
      M ++ '.' :: (m ++ '.' :: p) := by
  have hnl' : ∀ c ∈ any ++ '-' :: (M ++ '.' :: (m ++ '.' :: p)), c ≠ '\n' := by
    intro c hc heq
    subst heq
    rcases List.mem_append.mp hc with hc | hc
    · exact hnl _ hc rfl
    · rcases List.mem_cons.mp hc with hc | hc
      · exact absurd hc (by decide)
      · rcases List.mem_append.mp hc with hc | hc
        · exact absurd (hMd _ hc) (by decide)
        · rcases List.mem_cons.mp hc with hc | hc
          · exact absurd hc (by decide)
          · rcases List.mem_append.mp hc with hc | hc
            · exact absurd (hmd _ hc) (by decide)
            · rcases List.mem_cons.mp hc with hc | hc
              · exact absurd hc (by decide)
              · exact absurd (hpd _ hc) (by decide)
  have hcap : captures (any ++ '-' :: (M ++ '.' :: (m ++ '.' :: p))) =
      some (M, m, p) :=
    captures_eq_of_last hnl'
      (validAt_assembled hMne hMd hmne hmd hpne hpd)
      (fun j hj => validAt_after_dash hMd hmd hpd hj)
  constructor
  · unfold Version.parse_tag match_to_int
    rw [hcap]
    simp [hMb, hmb, hpb]
  · unfold Version.version_str
    simp only
    rw [intChars_natCast, intChars_natCast, intChars_natCast,
      natChars_toVal hMne hMd hMc, natChars_toVal hmne hmd hmc,
      natChars_toVal hpne hpd hpc]

/-- Witness for C2 at the tag `release-1.2.3`. -/
theorem c2_parse_format_roundtrip_witness :
    Version.parse_tag ("release".toList ++ '-' :: (['1'] ++ '.' :: (['2'] ++ '.' :: ['3']))) =
      .ok ⟨(toVal ['1'] : Int), (toVal ['2'] : Int), (toVal ['3'] : Int)⟩ ∧
    (Version.mk (toVal ['1']) (toVal ['2']) (toVal ['3'])).version_str =
      ['1'] ++ '.' :: (['2'] ++ '.' :: ['3']) :=
  c2_parse_format_roundtrip ("release".toList) ['1'] ['2'] ['3']
    (by decide) (by decide) (by decide) (by decide) (by decide) (by decide)
    (by decide) (by decide) (by decide) (by decide) (by decide) (by decide)
    (by decide)

/-! ### C10: the pattern is unanchored and keeps the last group -/

/-- C10 counterexample: `a-9999999999.9.9` contains a hyphen immediately
followed by `digits.digits.digits`, yet parsing does not succeed — the
captured major group overflows `i32` and `parse_tag` returns its error
outcome. -/
theorem c10_overflow_cex :
    Version.parse_tag ("a-9999999999.9.9".toList) = .error := by
  decide

/-- C10 (amended): on ASCII, newline-free tag names — the domain on which
the ASCII reading of `\d` is exact, since `\p{Nd}` and `0-9` coincide below
code point 128 in every Unicode version — the regex match selects the
greatest position carrying a hyphen immediately followed by
`digits.digits.digits` and captures that group, ignoring trailing text; the
subsequent parse succeeds exactly when each captured group is at most
2147483647 (otherwise `parse_tag` fails).  In particular
`release-1.2.3-beta` and `a-1.2.3.4` both parse to (1, 2, 3). -/
theorem c10_unanchored_last_group :
    (∀ (s : List Char) (k : Nat) (g : List Char × List Char × List Char),
      (∀ c ∈ s, c.toNat < 128) →
      (∀ c ∈ s, c ≠ '\n') → validAt s k = some g →
      (∀ j, k < j → validAt s j = none) →
      captures s = some g) ∧
    (∀ s g1 g2 g3 : List Char, (∀ c ∈ s, c.toNat < 128) →
      captures s = some (g1, g2, g3) →
      toVal g1 ≤ 2147483647 → toVal g2 ≤ 2147483647 → toVal g3 ≤ 2147483647 →
      Version.parse_tag s =
        .ok ⟨(toVal g1 : Int), (toVal g2 : Int), (toVal g3 : Int)⟩) ∧
    Version.parse_tag ("release-1.2.3-beta".toList) = .ok ⟨1, 2, 3⟩ ∧
    Version.parse_tag ("a-1.2.3.4".toList) = .ok ⟨1, 2, 3⟩ := by
  refine ⟨fun s k g _ hnl hk hmax => captures_eq_of_last hnl hk hmax,
    fun s g1 g2 g3 _ hc h1 h2 h3 => ?_, by decide, by decide⟩
  unfold Version.parse_tag match_to_int
  rw [hc]
  simp [h1, h2, h3]

/-- Witness for C10: in the ASCII tag `x-1.2.3-4.5.6` the later group wins. -/
theorem c10_unanchored_last_group_witness :
    Version.parse_tag ("x-1.2.3-4.5.6".toList) =
      .ok ⟨(toVal ['4'] : Int), (toVal ['5'] : Int), (toVal ['6'] : Int)⟩ :=
  c10_unanchored_last_group.2.1 ("x-1.2.3-4.5.6".toList) ['4'] ['5'] ['6']
    (by decide) (by decide) (by decide) (by decide) (by decide)
